import Mathlib

/-!
Verification of the image-migration tool (ImageUploaderWordpress).

We give a shallow embedding of the core pure logic of the repository:

* `image_matcher.py` — `ImageMatcher.normalize_filename`,
  `ImageMatcher.find_matching_media`, `ImageMatcher.extract_url_patterns`;
* `content_updater.py` — `ContentUpdater.find_and_replace_urls`,
  `ContentUpdater.find_content_with_urls`;
* `wordpress_api.py` — the pagination loop of `get_media_items` /
  `get_posts` / `get_pages`, and the outcome logic of `upload_media`,
  `update_post` / `update_page`.

Strings are modelled as `List Char`.  The embedding is an ASCII model of the
Python string primitives actually exercised by this code base: `str.lower`
is modelled by `Char.toLower` (ASCII case mapping) and the regex class `\d`
by the ASCII digits, matching Python's behaviour on all ASCII input.
Network requests are modelled by explicit request-result values, and the
paginated loops take the server as a function from page number to result
plus a fuel bound (the Python `while True` loop has no intrinsic bound; all
theorems below either supply sufficient fuel or hold for every fuel).
-/

/-- ASCII digit test, modelling the regex class `\d` of
`re.sub(r"-\d+x\d+$", "", name)` on ASCII input. -/
def isDigitChar (c : Char) : Bool :=
  '0' ≤ c && c ≤ '9'

/-- Split a character list at every `'/'`, keeping empty pieces.
Used to model `pathlib.PurePosixPath` component parsing. -/
def splitSlash : List Char → List (List Char)
  | [] => [[]]
  | c :: rest =>
    match splitSlash rest with
    | [] => [[]]
    | comp :: comps => if c = '/' then [] :: comp :: comps else (c :: comp) :: comps

/-- Model of `pathlib.Path(s).name` (POSIX): the last path component, where
empty components and `"."` components are dropped at parse time; `""` when no
component remains (e.g. for `""`, `"."`, `"/"`). -/
def pathName (s : List Char) : List Char :=
  (((splitSlash s).filter (fun c => !c.isEmpty && c != ['.'])).getLast?).getD []

/-- Model of `pathlib.PurePath.stem` on a file name: drop the part from the
last `'.'` on, but only when that dot is neither the first nor the last
character (CPython: `0 < name.rfind('.') < len(name) - 1`). -/
def stemOf (name : List Char) : List Char :=
  match name.reverse.dropWhile (fun c => c != '.') with
  | '.' :: restRev =>
    if restRev.isEmpty || (name.reverse.takeWhile (fun c => c != '.')).isEmpty then
      name
    else
      restRev.reverse
  | _ => name

/-- Parse a nonempty run of ASCII digits at the front of `l`; on success
return the remainder of `l`. -/
def parseDigits1 (l : List Char) : Option (List Char) :=
  match l.takeWhile isDigitChar with
  | [] => none
  | _ :: _ => some (l.dropWhile isDigitChar)

/-- The match of `-\d+x\d+` ending exactly at the end of `s`, read off
from the reversed string: if `s = a ++ "-" ++ d1 ++ "x" ++ d2` with `d1`,
`d2` nonempty digit runs, return `some a`, else `none`.  (Such a
decomposition is unique when it exists, so this coincides with the regex
engine's leftmost match ending there.) -/
def sizeSuffixRest (s : List Char) : Option (List Char) :=
  match parseDigits1 s.reverse with
  | none => none
  | some r2 =>
    match r2 with
    | 'x' :: r3 =>
      match parseDigits1 r3 with
      | none => none
      | some r4 =>
        match r4 with
        | '-' :: rest => some rest.reverse
        | _ => none
    | _ => none

/-- Model of `re.sub(r"-\d+x\d+$", "", name)`: strip a trailing
`-<width>x<height>` suffix anchored by `$`.  Python's `$` (without
`re.MULTILINE`) matches at the end of the string or just before one final
trailing newline, and the pattern itself cannot end in a newline, so when
the string ends in `'\n'` the match must end just before it. -/
def stripSizeSuffix (s : List Char) : List Char :=
  if s.getLast? = some '\n' then
    match sizeSuffixRest s.dropLast with
    | some a => a ++ ['\n']
    | none => s
  else (sizeSuffixRest s).getD s

/-- The match of `-scaled` ending exactly at the end of `s`: `some` of the
preceding part when `s` ends with `"-scaled"`. -/
def scaledSuffixRest (s : List Char) : Option (List Char) :=
  if "-scaled".toList.isSuffixOf s then some ((s.reverse.drop 7).reverse) else none

/-- Model of `re.sub(r"-scaled$", "", name)`: strip one trailing
`"-scaled"` anchored by `$`, which matches at the end of the string or
just before one final trailing newline. -/
def stripScaledSuffix (s : List Char) : List Char :=
  if s.getLast? = some '\n' then
    match scaledSuffixRest s.dropLast with
    | some a => a ++ ['\n']
    | none => s
  else (scaledSuffixRest s).getD s

/-- Model of `str.lower()` on ASCII input. -/
def lowerStr (s : List Char) : List Char :=
  s.map Char.toLower

/-- Model of `ImageMatcher.normalize_filename` (`image_matcher.py`):
`name = Path(filename).stem`, then `re.sub(r"-\d+x\d+$", "", name)`, then
`re.sub(r"-scaled$", "", name)`, then `name.lower()`. -/
def normalize_filename (filename : List Char) : List Char :=
  lowerStr (stripScaledSuffix (stripSizeSuffix (stemOf (pathName filename))))

/-- Reference definition following the spec's stated order of operations
for `normalizeName`: strip the extension, strip a trailing `"-scaled"`
suffix, strip a trailing `-<width>x<height>` suffix, then lowercase.  (Note
the two suffix strips come in the opposite order to the code.) -/
def normalizeNameSpecOrder (filename : List Char) : List Char :=
  lowerStr (stripSizeSuffix (stripScaledSuffix (stemOf (pathName filename))))

/-- A trailing-size-suffix decomposition of `s`, as the spec words it:
`s` is some `a` followed by `-<width>x<height>` where width and height are
nonempty digit runs. -/
def SizeDecomp (s a : List Char) : Prop :=
  ∃ d1 d2, s = a ++ '-' :: (d1 ++ 'x' :: d2) ∧ d1 ≠ [] ∧ d2 ≠ [] ∧
    (∀ c ∈ d1, isDigitChar c) ∧ (∀ c ∈ d2, isDigitChar c)

/-- A WordPress media item as consumed by `image_matcher.py`: the fields
`id`, `source_url` (`none` when absent) and `media_details.sizes`, the
latter as the ordered association list from size name to the size's
optional `source_url` (Python dicts preserve insertion order). -/
structure MediaItem where
  id : Nat
  source_url : Option (List Char)
  sizes : List (List Char × Option (List Char))
deriving DecidableEq

/-- Python truthiness of an optional string (`if source_url:`): true iff
present and nonempty. -/
def strTruthy : Option (List Char) → Bool
  | none => false
  | some s => !s.isEmpty

/-- The `for size_name, size_data in sizes.items()` loop of
`ImageMatcher.extract_url_patterns`: collect each size's `source_url` in
mapping order when truthy. -/
def sizeVariantUrls : List (List Char × Option (List Char)) → List (List Char)
  | [] => []
  | p :: rest =>
    if strTruthy p.2 then (p.2.getD []) :: sizeVariantUrls rest
    else sizeVariantUrls rest

/-- Model of `ImageMatcher.extract_url_patterns` (`image_matcher.py`): the
main `source_url` if truthy, then the size-variant URLs in mapping
order. -/
def extract_url_patterns (m : MediaItem) : List (List Char) :=
  (if strTruthy m.source_url then [m.source_url.getD []] else []) ++
    sizeVariantUrls m.sizes

/-- Reference definition following the spec's words for `urlVariants`: the
canonical URL followed by the size-variant URLs, and the empty list when
the asset has no canonical URL. -/
def urlVariantsSpec (m : MediaItem) : List (List Char) :=
  if strTruthy m.source_url then (m.source_url.getD []) :: sizeVariantUrls m.sizes
  else []

/-- The qualification test of the loop body of
`ImageMatcher.find_matching_media`: take the media item's `source_url`
(defaulting to `""`), extract its file name, require the lowercased name to
end in `".png"`, and compare normalized names against the target. -/
def matchesMedia (target : List Char) (m : MediaItem) : Bool :=
  ".png".toList.isSuffixOf (lowerStr (pathName (m.source_url.getD []))) &&
    normalize_filename (pathName (m.source_url.getD [])) == target

/-- The scanning loop of `ImageMatcher.find_matching_media`: first media
item in list order passing `matchesMedia`. -/
def findFirstMatch (target : List Char) : List MediaItem → Option MediaItem
  | [] => none
  | m :: rest => if matchesMedia target m then some m else findFirstMatch target rest

/-- Model of `ImageMatcher.find_matching_media` (`image_matcher.py`):
normalize the local file's name, scan the media items in order, and return
the first whose PNG file name normalizes to the same value. -/
def find_matching_media (webpFile : List Char) (media_items : List MediaItem) :
    Option MediaItem :=
  findFirstMatch (normalize_filename (pathName webpFile)) media_items

/-- ASCII letter test (`string.ascii_letters` in `sre_parse`). -/
def isAsciiLetter (c : Char) : Bool :=
  ('a' ≤ c && c ≤ 'z') || ('A' ≤ c && c ≤ 'Z')

/-- ASCII octal digit test. -/
def isOctalChar (c : Char) : Bool :=
  '0' ≤ c && c ≤ '7'

/-- ASCII whitespace stripped by Python `int()` on strings. -/
def isPyWhitespaceChar (c : Char) : Bool :=
  c = ' ' || c = '\t' || c = '\n' || c = Char.ofNat 13 ||
    c = Char.ofNat 11 || c = Char.ofNat 12

/-- A nonempty decimal digit run with single underscores allowed between
digits (Python `int()` literal syntax), continuing after a first digit of
value `acc`. -/
def digitsUnderAux (acc : Nat) : List Char → Option Nat
  | [] => some acc
  | c :: rest =>
    if isDigitChar c then digitsUnderAux (10 * acc + (c.toNat - 48)) rest
    else if c = '_' then
      match rest with
      | d :: rest2 =>
        if isDigitChar d then digitsUnderAux (10 * acc + (d.toNat - 48)) rest2
        else none
      | [] => none
    else none

/-- A nonempty decimal digit run with single underscores between digits. -/
def digitsUnder : List Char → Option Nat
  | [] => none
  | c :: rest =>
    if isDigitChar c then digitsUnderAux (c.toNat - 48) rest else none

/-- Model of Python `int(name)` on an ASCII base-10 string: optional
surrounding whitespace, an optional single sign, then digits with single
underscores between digits. -/
def pyIntParse (l : List Char) : Option Int :=
  match ((l.dropWhile isPyWhitespaceChar).reverse.dropWhile isPyWhitespaceChar).reverse with
  | '+' :: ds => (digitsUnder ds).map Int.ofNat
  | '-' :: ds => (digitsUnder ds).map (fun n => -(n : Int))
  | ds => (digitsUnder ds).map Int.ofNat

/-- One escape of a Python `re.sub` replacement template (the characters
after a backslash), against a pattern with no capturing groups whose every
match is the literal `matched`: `\g<name>` inserts the matched text when
`int(name)` parses to 0 (`\g<0>`, `\g<00>`, `\g<+0>`, `\g< 0>`, `\g<0_0>`,
…) and is otherwise an invalid/unknown group reference; `\0` with up to
two more octal digits is an octal escape; `\1`..`\9` followed by a second
digit and an octal third digit form a three-digit octal escape (error
above `0o377`), and otherwise reference a group `≥ 1`, which the
zero-group pattern makes an invalid group reference; `\a \b \f \n \r \t
\v \\` are the known letter escapes; any other escaped ASCII letter is a
reserved "bad escape"; other unknown escapes are left alone; a trailing
backslash is an error.  Returns the inserted characters and the remaining
template, or `none` when CPython raises (`re.error` / `IndexError`). -/
def escapeStep (matched : List Char) : List Char → Option (List Char × List Char)
  | [] => none
  | e :: rest2 =>
    if e = 'g' then
      match rest2 with
      | '<' :: rest3 =>
        match rest3.dropWhile (fun c2 => c2 != '>') with
        | '>' :: rest4 =>
          let nm := rest3.takeWhile (fun c2 => c2 != '>')
          if pyIntParse nm = some 0 then some (matched, rest4)
          else none
        | _ => none
      | _ => none
    else if e = '0' then
      match rest2 with
      | d1 :: rest3 =>
        if isOctalChar d1 then
          match rest3 with
          | d2 :: rest4 =>
            if isOctalChar d2 then
              some ([Char.ofNat (8 * (d1.toNat - 48) + (d2.toNat - 48))], rest4)
            else some ([Char.ofNat (d1.toNat - 48)], rest3)
          | [] => some ([Char.ofNat (d1.toNat - 48)], [])
        else some ([Char.ofNat 0], rest2)
      | [] => some ([Char.ofNat 0], [])
    else if isDigitChar e then
      match rest2 with
      | d2 :: d3 :: rest4 =>
        if isDigitChar d2 && isOctalChar e && isOctalChar d2 && isOctalChar d3 then
          let v := 64 * (e.toNat - 48) + 8 * (d2.toNat - 48) + (d3.toNat - 48)
          if v > 255 then none else some ([Char.ofNat v], rest4)
        else none
      | _ => none
    else if e = 'a' then some ([Char.ofNat 7], rest2)
    else if e = 'b' then some ([Char.ofNat 8], rest2)
    else if e = 'f' then some ([Char.ofNat 12], rest2)
    else if e = 'n' then some (['\n'], rest2)
    else if e = 'r' then some ([Char.ofNat 13], rest2)
    else if e = 't' then some (['\t'], rest2)
    else if e = 'v' then some ([Char.ofNat 11], rest2)
    else if e = '\\' then some (['\\'], rest2)
    else if isAsciiLetter e then none
    else some (['\\', e], rest2)

/-- Expansion of a Python `re.sub` replacement template: literal
characters pass through, a backslash consumes one escape via
`escapeStep`; `none` models `re.error` being raised.  The fuel argument
bounds recursion; `tmpl.length` always suffices. -/
def expandTemplateF (matched : List Char) : Nat → List Char → Option (List Char)
  | _, [] => some []
  | 0, _ :: _ => none
  | fuel+1, c :: rest =>
    if c = '\\' then
      match escapeStep matched rest with
      | none => none
      | some (ins, rest2) => (expandTemplateF matched fuel rest2).map (ins ++ ·)
    else (expandTemplateF matched fuel rest).map (c :: ·)

/-- Template expansion with sufficient fuel. -/
def expandTemplate (matched tmpl : List Char) : Option (List Char) :=
  expandTemplateF matched tmpl.length tmpl

/-- Count of the non-overlapping, leftmost occurrences of the literal
`pat` in the text, as `len(re.findall(re.escape(pat), text))` computes it
(the empty pattern matches at every position, including the end).  The
fuel argument bounds recursion; the text's length always suffices. -/
def countOccsF (pat : List Char) : Nat → List Char → Nat
  | _, [] => if pat.isEmpty then 1 else 0
  | 0, _ :: _ => 0
  | fuel+1, c :: rest =>
    if pat.isEmpty then countOccsF pat fuel rest + 1
    else if pat.isPrefixOf (c :: rest) then
      countOccsF pat fuel (List.drop (pat.length - 1) rest) + 1
    else countOccsF pat fuel rest

/-- `len(re.findall(re.escape(pat), text))`. -/
def countOccs (pat text : List Char) : Nat :=
  countOccsF pat text.length text

/-- Replacement of every non-overlapping, leftmost occurrence of the
literal `pat` by the fixed string `repl`, as
`re.sub(re.escape(pat), tmpl, text)` does once the template has expanded to
`repl`.  The fuel argument bounds recursion; the text's length always
suffices. -/
def pySubF (pat repl : List Char) : Nat → List Char → List Char
  | _, [] => if pat.isEmpty then repl else []
  | 0, t => t
  | fuel+1, c :: rest =>
    if pat.isEmpty then repl ++ c :: pySubF pat repl fuel rest
    else if pat.isPrefixOf (c :: rest) then
      repl ++ pySubF pat repl fuel (List.drop (pat.length - 1) rest)
    else c :: pySubF pat repl fuel rest

/-- `re.sub(re.escape(pat), tmpl, text)` with the template expanded to the
fixed string `repl`. -/
def pySub (pat repl text : List Char) : List Char :=
  pySubF pat repl text.length text

/-- The `for old_url in old_urls` loop of
`ContentUpdater.find_and_replace_urls`: count occurrences with `findall`,
and when the count is positive run `re.sub` with `new_url` as the
replacement template (`none` models the `re.error` that a bad template
raises). -/
def farGo (new_url : List Char) :
    List (List Char) → List Char → Nat → Option (List Char × Nat)
  | [], updated, total => some (updated, total)
  | old :: rest, updated, total =>
    let count := countOccs old updated
    if count > 0 then
      match expandTemplate old new_url with
      | none => none
      | some repl => farGo new_url rest (pySub old repl updated) (total + count)
    else farGo new_url rest updated total

/-- Model of `ContentUpdater.find_and_replace_urls`
(`content_updater.py`). -/
def find_and_replace_urls (content : List Char) (old_urls : List (List Char))
    (new_url : List Char) : Option (List Char × Nat) :=
  farGo new_url old_urls content 0

/-- Reference definition following the spec's words for one pass of
`replaceAll`: replace every literal, non-overlapping occurrence of `old`
in the text with `new`, returning the new text and the occurrence
count. -/
def litReplace (old new : List Char) : Nat → List Char → (List Char × Nat)
  | _, [] => if old.isEmpty then (new, 1) else ([], 0)
  | 0, t => (t, 0)
  | fuel+1, c :: rest =>
    if old.isEmpty then
      let p := litReplace old new fuel rest
      (new ++ c :: p.1, p.2 + 1)
    else if old.isPrefixOf (c :: rest) then
      let p := litReplace old new fuel (List.drop (old.length - 1) rest)
      (new ++ p.1, p.2 + 1)
    else
      let p := litReplace old new fuel rest
      (c :: p.1, p.2)

/-- Reference definition following the spec's words for `replaceAll`: for
each old URL in the given order, count and replace every literal,
non-overlapping occurrence in the current text with the new URL,
accumulating a running total. -/
def replaceAllSpecGo (new_url : List Char) :
    List (List Char) → List Char → Nat → (List Char × Nat)
  | [], text, total => (text, total)
  | old :: rest, text, total =>
    let p := litReplace old new_url text.length text
    replaceAllSpecGo new_url rest p.1 (total + p.2)

/-- Reference `replaceAll` per the spec's words. -/
def replaceAllSpec (text : List Char) (old_urls : List (List Char))
    (new_url : List Char) : List Char × Nat :=
  replaceAllSpecGo new_url old_urls text 0

/-- The `content` field of a WordPress post/page as consumed by
`content_updater.py`: either a dict with an optional `rendered` key or a
plain string. -/
inductive ContentField
  | dict (rendered : Option (List Char))
  | str (s : List Char)
deriving DecidableEq

/-- A post/page as consumed by `ContentUpdater.find_content_with_urls`. -/
structure ContentItem where
  id : Nat
  content : ContentField
deriving DecidableEq

/-- The `content.get("rendered", "")` / `str(content)` extraction of
`content_updater.py`. -/
def contentHtml : ContentField → List Char
  | .dict r => r.getD []
  | .str s => s

/-- Python's substring containment `needle in hay` on strings: `needle`
occurs contiguously in `hay` (the empty needle is always contained). -/
def containsSub (hay needle : List Char) : Bool :=
  needle.isPrefixOf hay ||
    match hay with
    | [] => false
    | _ :: t => containsSub t needle

/-- Model of `ContentUpdater.find_content_with_urls`
(`content_updater.py`): keep each item whose body text contains at least
one of the URLs; the inner loop breaks at the first URL that matches, so
an item is appended at most once. -/
def find_content_with_urls (posts_and_pages : List ContentItem)
    (urls : List (List Char)) : List ContentItem :=
  match posts_and_pages with
  | [] => []
  | item :: rest =>
    if urls.any (fun url => containsSub (contentHtml item.content) url) then
      item :: find_content_with_urls rest urls
    else find_content_with_urls rest urls

/-- One page of a WordPress listing response: HTTP status, the JSON array
of items, and the optional `X-WP-TotalPages` header. -/
structure PageResponse (α : Type) where
  status : Nat
  items : List α
  totalPages : Option Nat
deriving DecidableEq

/-- Outcome of one paginated GET request: a raised
`requests.exceptions.RequestException`, or a response. -/
inductive ReqOutcome (α : Type)
  | exn : ReqOutcome α
  | ok : PageResponse α → ReqOutcome α
deriving DecidableEq

/-- The `while True` pagination loop shared verbatim by
`WordPressAPI.get_media_items`, `get_posts` and `get_pages`
(`wordpress_api.py`): request the current page; on an exception or a
non-200 status or an empty page stop with what was accumulated; otherwise
extend the accumulator, stop if the current page has reached
`int(headers.get("X-WP-TotalPages", 1))`, else continue with the next
page.  Alongside the accumulated items the model records the list of page
numbers actually requested.  The fuel argument bounds the otherwise
unbounded loop; every theorem below either holds for all fuel or supplies
enough. -/
def fetchAllPages {α : Type} (server : Nat → ReqOutcome α) :
    Nat → Nat → List α → List Nat → (List α × List Nat)
  | 0, _, acc, reqs => (acc, reqs)
  | fuel+1, page, acc, reqs =>
    match server page with
    | .exn => (acc, reqs ++ [page])
    | .ok r =>
      if r.status ≠ 200 then (acc, reqs ++ [page])
      else if r.items.isEmpty then (acc, reqs ++ [page])
      else if page ≥ r.totalPages.getD 1 then (acc ++ r.items, reqs ++ [page])
      else fetchAllPages server fuel (page + 1) (acc ++ r.items) (reqs ++ [page])

/-- Model of `WordPressAPI.get_media_items`: full pagination starting at
page 1. -/
def get_media_items {α : Type} (server : Nat → ReqOutcome α) (fuel : Nat) :
    List α × List Nat :=
  fetchAllPages server fuel 1 [] []

/-- Model of `WordPressAPI.get_posts` (same loop, posts endpoint). -/
def get_posts {α : Type} (server : Nat → ReqOutcome α) (fuel : Nat) :
    List α × List Nat :=
  fetchAllPages server fuel 1 [] []

/-- Model of `WordPressAPI.get_pages` (same loop, pages endpoint). -/
def get_pages {α : Type} (server : Nat → ReqOutcome α) (fuel : Nat) :
    List α × List Nat :=
  fetchAllPages server fuel 1 [] []

/-- The mock listing endpoint of the spec's pagination scenario: pages 1-3
each return 100 items with `X-WP-TotalPages: 3`; any later page returns an
empty list. -/
def mockServer3 : Nat → ReqOutcome Nat :=
  fun page =>
    if page ≤ 3 then .ok ⟨200, (List.range 100).map (fun i => (page - 1) * 100 + i), some 3⟩
    else .ok ⟨200, [], some 3⟩

/-- Outcome of the single POST of `WordPressAPI.upload_media`: an
`IOError` opening the local file, a raised requests exception, or a
response with a status and a parsed media-item body. -/
inductive UploadOutcome
  | ioError : UploadOutcome
  | exn : UploadOutcome
  | ok : Nat → MediaItem → UploadOutcome
deriving DecidableEq

/-- Model of `WordPressAPI.upload_media` (`wordpress_api.py`): the parsed
body on a 201 response, `none` on any other status, on a requests
exception, and on an `IOError` reading the file. -/
def upload_media : UploadOutcome → Option MediaItem
  | .ioError => none
  | .exn => none
  | .ok status body => if status = 201 then some body else none

/-- Outcome of a single update POST: a raised requests exception or a
response status. -/
inductive SimpleOutcome
  | exn : SimpleOutcome
  | ok : Nat → SimpleOutcome
deriving DecidableEq

/-- Model of `WordPressAPI.update_post` (`wordpress_api.py`): true iff the
response status is 200; false on an exception. -/
def update_post : SimpleOutcome → Bool
  | .exn => false
  | .ok status => status == 200

/-- Model of `WordPressAPI.update_page` (`wordpress_api.py`): identical
logic against the pages endpoint. -/
def update_page : SimpleOutcome → Bool
  | .exn => false
  | .ok status => status == 200

-- ===================================================================
-- Theorems
-- ===================================================================

theorem takeWhile_middle {p : Char → Bool} {xs ys : List Char} {y : Char}
    (hxs : ∀ x ∈ xs, p x = true) (hy : p y = false) :
    (xs ++ y :: ys).takeWhile p = xs := by
  induction xs with
  | nil => simp [List.takeWhile, hy]
  | cons a l ih =>
    have ha : p a = true := hxs a (by simp)
    simp only [List.cons_append, List.takeWhile_cons, ha]
    simp [ih (fun x hx => hxs x (by simp [hx]))]

theorem dropWhile_middle {p : Char → Bool} {xs ys : List Char} {y : Char}
    (hxs : ∀ x ∈ xs, p x = true) (hy : p y = false) :
    (xs ++ y :: ys).dropWhile p = y :: ys := by
  induction xs with
  | nil => simp [List.dropWhile, hy]
  | cons a l ih =>
    have ha : p a = true := hxs a (by simp)
    simp only [List.cons_append, List.dropWhile_cons, ha]
    simpa using ih (fun x hx => hxs x (by simp [hx]))

theorem sizeSuffixRest_of_decomp {s a : List Char} (h : SizeDecomp s a) :
    sizeSuffixRest s = some a := by
  obtain ⟨d1, d2, hs, hd1, hd2, hdig1, hdig2⟩ := h
  have hxd : isDigitChar 'x' = false := by decide
  have hdd : isDigitChar '-' = false := by decide
  have hrev : s.reverse = d2.reverse ++ 'x' :: (d1.reverse ++ '-' :: a.reverse) := by
    subst hs; simp
  have hdig2r : ∀ c ∈ d2.reverse, isDigitChar c = true := by
    intro c hc; exact hdig2 c (List.mem_reverse.mp hc)
  have hdig1r : ∀ c ∈ d1.reverse, isDigitChar c = true := by
    intro c hc; exact hdig1 c (List.mem_reverse.mp hc)
  have ht2 : s.reverse.takeWhile isDigitChar = d2.reverse := by
    rw [hrev]; exact takeWhile_middle hdig2r hxd
  have hr2 : s.reverse.dropWhile isDigitChar = 'x' :: (d1.reverse ++ '-' :: a.reverse) := by
    rw [hrev]; exact dropWhile_middle hdig2r hxd
  have hne2 : d2.reverse ≠ [] := by simpa using hd2
  unfold sizeSuffixRest parseDigits1
  rw [ht2, hr2]
  cases hd2r : d2.reverse with
  | nil => exact absurd hd2r hne2
  | cons b bs =>
    simp only
    have ht1 : (d1.reverse ++ '-' :: a.reverse).takeWhile isDigitChar = d1.reverse :=
      takeWhile_middle hdig1r hdd
    have hr1 : (d1.reverse ++ '-' :: a.reverse).dropWhile isDigitChar = '-' :: a.reverse :=
      dropWhile_middle hdig1r hdd
    rw [ht1, hr1]
    cases hd1r : d1.reverse with
    | nil => exact absurd hd1r (by simpa using hd1)
    | cons e es => simp

theorem sizeSuffixRest_decomp_of_some {s a : List Char}
    (h : sizeSuffixRest s = some a) : SizeDecomp s a := by
  unfold sizeSuffixRest parseDigits1 at h
  rcases ht2 : s.reverse.takeWhile isDigitChar with _ | ⟨b, bs⟩
  · rw [ht2] at h; simp at h
  rw [ht2] at h
  simp only at h
  rcases hr2 : s.reverse.dropWhile isDigitChar with _ | ⟨x, r3⟩
  · rw [hr2] at h; simp at h
  rw [hr2] at h
  by_cases hx : x = 'x'
  · subst hx
    simp only at h
    rcases ht1 : r3.takeWhile isDigitChar with _ | ⟨e, es⟩
    · rw [ht1] at h; simp at h
    rw [ht1] at h
    simp only at h
    rcases hr1 : r3.dropWhile isDigitChar with _ | ⟨d, r4⟩
    · rw [hr1] at h; simp at h
    rw [hr1] at h
    by_cases hd : d = '-'
    · subst hd
      simp only [Option.some.injEq] at h
      refine ⟨(e :: es).reverse, (b :: bs).reverse, ?_, by simp, by simp, ?_, ?_⟩
      · have hsrev : s.reverse = (b :: bs) ++ 'x' :: ((e :: es) ++ '-' :: r4) := by
          calc s.reverse = s.reverse.takeWhile isDigitChar ++ s.reverse.dropWhile isDigitChar :=
                (List.takeWhile_append_dropWhile ..).symm
            _ = (b :: bs) ++ 'x' :: r3 := by rw [ht2, hr2]
            _ = (b :: bs) ++ 'x' :: (r3.takeWhile isDigitChar ++ r3.dropWhile isDigitChar) := by
                rw [List.takeWhile_append_dropWhile]
            _ = (b :: bs) ++ 'x' :: ((e :: es) ++ '-' :: r4) := by rw [ht1, hr1]
        have := congrArg List.reverse hsrev
        simp at this
        rw [this, ← h]
        simp
      · intro c hc
        have hc2 : c ∈ e :: es := List.mem_reverse.mp hc
        have : c ∈ r3.takeWhile isDigitChar := by rw [ht1]; exact hc2
        exact List.mem_takeWhile_imp this
      · intro c hc
        have hc2 : c ∈ b :: bs := List.mem_reverse.mp hc
        have : c ∈ s.reverse.takeWhile isDigitChar := by rw [ht2]; exact hc2
        exact List.mem_takeWhile_imp this
    · split at h
      · rename_i heq
        exact absurd (List.head_eq_of_cons_eq heq) hd
      · exact absurd h (by simp)
  · split at h
    · rename_i heq
      exact absurd (List.head_eq_of_cons_eq heq) hx
    · exact absurd h (by simp)

theorem getLast?_append_right {l1 l2 : List Char} (h : l2 ≠ []) :
    (l1 ++ l2).getLast? = l2.getLast? := by
  rw [List.getLast?_append]
  cases l2 with
  | nil => exact absurd rfl h
  | cons x t =>
    cases hg : (x :: t).getLast? with
    | none => simp at hg
    | some y => rfl

theorem sizeDecomp_getLast_ne_newline {s a : List Char} (h : SizeDecomp s a) :
    s.getLast? ≠ some '\n' := by
  obtain ⟨d1, d2, hs, hd1, hd2, hdig1, hdig2⟩ := h
  have hsplit : s = (a ++ '-' :: d1 ++ ['x']) ++ d2 := by rw [hs]; simp
  rw [hsplit, getLast?_append_right hd2]
  intro hlast
  have hmem : '\n' ∈ d2 := List.mem_of_mem_getLast? hlast
  have hd := hdig2 '\n' hmem
  revert hd
  decide

theorem stripSizeSuffix_of_decomp {s a : List Char} (h : SizeDecomp s a) :
    stripSizeSuffix s = a := by
  unfold stripSizeSuffix
  rw [if_neg (sizeDecomp_getLast_ne_newline h), sizeSuffixRest_of_decomp h]
  rfl

theorem stripSizeSuffix_of_no_decomp {s : List Char} (hnl : s.getLast? ≠ some '\n')
    (h : ¬ ∃ a, SizeDecomp s a) : stripSizeSuffix s = s := by
  unfold stripSizeSuffix
  rw [if_neg hnl]
  rcases he : sizeSuffixRest s with _ | a
  · rfl
  · exact absurd ⟨a, sizeSuffixRest_decomp_of_some he⟩ h

theorem stripSizeSuffix_newline_of_decomp {s a : List Char} (h : SizeDecomp s a) :
    stripSizeSuffix (s ++ ['\n']) = a ++ ['\n'] := by
  have hlast : (s ++ ['\n']).getLast? = some '\n' :=
    @getLast?_append_right s ['\n'] (by simp)
  unfold stripSizeSuffix
  rw [if_pos hlast, List.dropLast_concat, sizeSuffixRest_of_decomp h]

theorem stripSizeSuffix_newline_of_no_decomp {s : List Char}
    (h : ¬ ∃ a, SizeDecomp s a) : stripSizeSuffix (s ++ ['\n']) = s ++ ['\n'] := by
  have hlast : (s ++ ['\n']).getLast? = some '\n' :=
    @getLast?_append_right s ['\n'] (by simp)
  unfold stripSizeSuffix
  rw [if_pos hlast, List.dropLast_concat]
  rcases he : sizeSuffixRest s with _ | a
  · rfl
  · exact absurd ⟨a, sizeSuffixRest_decomp_of_some he⟩ h

theorem char_toNat_ofNat_add32 {n : Nat} (h1 : 65 ≤ n) (h2 : n ≤ 90) :
    (Char.ofNat (n + 32)).toNat = n + 32 := by
  interval_cases n <;> decide

theorem char_toLower_toLower (c : Char) : c.toLower.toLower = c.toLower := by
  simp only [Char.toLower]
  by_cases h : c.toNat ≥ 65 ∧ c.toNat ≤ 90
  · rw [if_pos h]
    rw [if_neg]
    rw [char_toNat_ofNat_add32 h.1 h.2]
    omega
  · rw [if_neg h, if_neg h]

theorem char_toLower_ne_slash {c : Char} (h : c ≠ '/') : c.toLower ≠ '/' := by
  simp only [Char.toLower]
  by_cases hr : c.toNat ≥ 65 ∧ c.toNat ≤ 90
  · rw [if_pos hr]
    intro he
    have h2 := congrArg Char.toNat he
    rw [char_toNat_ofNat_add32 hr.1 hr.2] at h2
    have h3 : ('/' : Char).toNat = 47 := by decide
    rw [h3] at h2
    omega
  · rw [if_neg hr]
    exact h

theorem mem_of_mem_dropWhile {c : Char} {p : Char → Bool} {l : List Char}
    (h : c ∈ l.dropWhile p) : c ∈ l := by
  induction l with
  | nil => simp at h
  | cons a t ih =>
    rw [List.dropWhile_cons] at h
    by_cases hp : p a = true
    · rw [if_pos hp] at h
      exact List.mem_cons_of_mem a (ih h)
    · rw [if_neg hp] at h
      exact h

theorem mem_of_mem_stemOf {c : Char} {nm : List Char} (h : c ∈ stemOf nm) : c ∈ nm := by
  unfold stemOf at h
  split at h
  · rename_i restRev heq
    split at h
    · exact h
    · rename_i hcond
      have h1 : c ∈ restRev := List.mem_reverse.mp h
      have h2 : c ∈ '.' :: restRev := List.mem_cons_of_mem _ h1
      rw [← heq] at h2
      exact List.mem_reverse.mp (mem_of_mem_dropWhile h2)
  · exact h

theorem mem_of_sizeSuffixRest {c : Char} {t a : List Char}
    (he : sizeSuffixRest t = some a) (hc : c ∈ a) : c ∈ t := by
  obtain ⟨d1, d2, hs, -, -, -, -⟩ := sizeSuffixRest_decomp_of_some he
  rw [hs]
  exact List.mem_append_left _ hc

theorem mem_of_mem_stripSizeSuffix {c : Char} {s : List Char}
    (h : c ∈ stripSizeSuffix s) : c ∈ s := by
  unfold stripSizeSuffix at h
  by_cases hnl : s.getLast? = some '\n'
  · rw [if_pos hnl] at h
    rcases he : sizeSuffixRest s.dropLast with _ | a
    · rw [he] at h; exact h
    · rw [he] at h
      rcases List.mem_append.mp h with h1 | h2
      · exact List.mem_of_mem_dropLast (mem_of_sizeSuffixRest he h1)
      · have hc : c = '\n' := by simpa using h2
        subst hc
        exact List.mem_of_mem_getLast? hnl
  · rw [if_neg hnl] at h
    rcases he : sizeSuffixRest s with _ | a
    · rw [he] at h; exact h
    · rw [he] at h
      exact mem_of_sizeSuffixRest he h

theorem mem_of_scaledSuffixRest {c : Char} {t a : List Char}
    (he : scaledSuffixRest t = some a) (hc : c ∈ a) : c ∈ t := by
  unfold scaledSuffixRest at he
  split at he
  · injection he with he2
    subst he2
    have h1 : c ∈ List.drop 7 t.reverse := List.mem_reverse.mp hc
    exact List.mem_reverse.mp (List.mem_of_mem_drop h1)
  · exact absurd he (by simp)

theorem mem_of_mem_stripScaledSuffix {c : Char} {s : List Char}
    (h : c ∈ stripScaledSuffix s) : c ∈ s := by
  unfold stripScaledSuffix at h
  by_cases hnl : s.getLast? = some '\n'
  · rw [if_pos hnl] at h
    rcases he : scaledSuffixRest s.dropLast with _ | a
    · rw [he] at h; exact h
    · rw [he] at h
      rcases List.mem_append.mp h with h1 | h2
      · exact List.mem_of_mem_dropLast (mem_of_scaledSuffixRest he h1)
      · have hc : c = '\n' := by simpa using h2
        subst hc
        exact List.mem_of_mem_getLast? hnl
  · rw [if_neg hnl] at h
    rcases he : scaledSuffixRest s with _ | a
    · rw [he] at h; exact h
    · rw [he] at h
      exact mem_of_scaledSuffixRest he h

theorem slash_not_mem_of_mem_splitSlash {s comp : List Char}
    (hc : comp ∈ splitSlash s) : '/' ∉ comp := by
  induction s generalizing comp with
  | nil =>
    simp only [splitSlash, List.mem_singleton] at hc
    subst hc; simp
  | cons c0 rest ih =>
    simp only [splitSlash] at hc
    split at hc
    · simp only [List.mem_singleton] at hc
      subst hc; simp
    · rename_i comp0 comps hsp
      by_cases hc0 : c0 = '/'
      · rw [if_pos hc0] at hc
        rcases List.mem_cons.mp hc with h1 | h2
        · subst h1; simp
        · exact ih (by rw [hsp]; exact h2)
      · rw [if_neg hc0] at hc
        rcases List.mem_cons.mp hc with h1 | h2
        · subst h1
          intro hmem
          rcases List.mem_cons.mp hmem with h3 | h4
          · exact hc0 h3.symm
          · exact ih (by rw [hsp]; exact List.mem_cons_self comp0 comps) h4
        · exact ih (by rw [hsp]; exact List.mem_cons_of_mem comp0 h2)

theorem slash_not_mem_pathName (s : List Char) : '/' ∉ pathName s := by
  unfold pathName
  rcases hg : ((splitSlash s).filter (fun c => !c.isEmpty && c != ['.'])).getLast? with _ | x
  · rw [hg]; simp
  · rw [hg]
    simp only [Option.getD_some]
    have hx : x ∈ (splitSlash s).filter (fun c => !c.isEmpty && c != ['.']) :=
      List.mem_of_mem_getLast? hg
    exact slash_not_mem_of_mem_splitSlash (List.mem_filter.mp hx).1

theorem slash_not_mem_normalize (s : List Char) : '/' ∉ normalize_filename s := by
  unfold normalize_filename lowerStr
  intro hmem
  obtain ⟨c0, hc0, hlow⟩ := List.mem_map.mp hmem
  by_cases he : c0 = '/'
  · subst he
    exact slash_not_mem_pathName s
      (mem_of_mem_stemOf (mem_of_mem_stripSizeSuffix (mem_of_mem_stripScaledSuffix hc0)))
  · exact char_toLower_ne_slash he hlow

theorem splitSlash_of_no_slash {n : List Char} (hslash : '/' ∉ n) :
    splitSlash n = [n] := by
  induction n with
  | nil => rfl
  | cons c rest ih =>
    have hc : c ≠ '/' := fun he => hslash (he ▸ List.mem_cons_self c rest)
    have hrest : '/' ∉ rest := fun hm => hslash (List.mem_cons_of_mem c hm)
    simp only [splitSlash, ih hrest]
    rw [if_neg hc]

theorem pathName_eq_self {n : List Char} (hslash : '/' ∉ n) (hdot : n ≠ ['.']) :
    pathName n = n := by
  unfold pathName
  rw [splitSlash_of_no_slash hslash]
  rcases hn : n with _ | ⟨c, rest⟩
  · rfl
  · rw [← hn]
    have hp : (!n.isEmpty && n != ['.']) = true := by
      rw [hn]
      simp only [List.isEmpty_cons, Bool.not_false, Bool.true_and, bne_iff_ne]
      rw [← hn]
      exact hdot
    rw [List.filter_cons, hp]
    rfl

theorem stemOf_eq_self {n : List Char} (hdot : '.' ∉ n) : stemOf n = n := by
  unfold stemOf
  have hd : n.reverse.dropWhile (fun c => c != '.') = [] := by
    rw [List.dropWhile_eq_nil_iff]
    intro x hx
    simp only [bne_iff_ne, ne_eq, decide_eq_true_eq]
    intro he
    exact hdot (he ▸ List.mem_reverse.mp hx)
  rw [hd]

theorem lowerStr_idem (l : List Char) : lowerStr (lowerStr l) = lowerStr l := by
  unfold lowerStr
  rw [List.map_map]
  exact List.map_congr_left (fun c _ => char_toLower_toLower c)

/-- C1 (counterexample): the spec's stated order of operations — strip
extension, strip `"-scaled"`, then strip `-<width>x<height>` — disagrees
with the code on `"a-1x1-scaled.png"`: the code strips the size suffix
first and then `"-scaled"`, giving `"a-1x1"`, while the spec's order gives
`"a"`. -/
theorem claim_C1_counterexample :
    normalize_filename "a-1x1-scaled.png".toList ≠
      normalizeNameSpecOrder "a-1x1-scaled.png".toList := by
  decide

/-- C1 (amended): `normalize_filename` strips the extension, then a
trailing `-<width>x<height>` suffix, then a trailing `"-scaled"` suffix,
then lowercases.  The size-suffix strip removes exactly an end-anchored
`-<digits>x<digits>` decomposition, where — matching Python's `$` — the
suffix may also be followed by one final trailing newline; apart from
that, digits-x-digits elsewhere in the name is untouched.  The claim's
concrete examples all hold. -/
theorem claim_C1_amended :
    (∀ s, normalize_filename s =
      lowerStr (stripScaledSuffix (stripSizeSuffix (stemOf (pathName s))))) ∧
    (∀ s a, SizeDecomp s a → stripSizeSuffix s = a) ∧
    (∀ s a, SizeDecomp s a → stripSizeSuffix (s ++ ['\n']) = a ++ ['\n']) ∧
    (∀ s, s.getLast? ≠ some '\n' → (¬ ∃ a, SizeDecomp s a) → stripSizeSuffix s = s) ∧
    (∀ s, (¬ ∃ a, SizeDecomp s a) → stripSizeSuffix (s ++ ['\n']) = s ++ ['\n']) ∧
    normalize_filename "photo-1024x768.png".toList = "photo".toList ∧
    normalize_filename "photo.webp".toList = "photo".toList ∧
    normalize_filename "banner-scaled.png".toList = "banner".toList ∧
    normalize_filename "report-2023x2024.png".toList = "report".toList :=
  ⟨fun _ => rfl, fun _ _ h => stripSizeSuffix_of_decomp h,
    fun _ _ h => stripSizeSuffix_newline_of_decomp h,
    fun _ hnl h => stripSizeSuffix_of_no_decomp hnl h,
    fun _ h => stripSizeSuffix_newline_of_no_decomp h,
    by decide, by decide, by decide, by decide⟩

/-- C1 witness: the amended theorem applied at concrete inputs — the
trailing size suffix of `"report-2023x2024"` is stripped, also when one
trailing newline follows it, while `"2023x2024-report"` (digits-x-digits
not at the end) is untouched. -/
theorem claim_C1_amended_witness :
    stripSizeSuffix "report-2023x2024".toList = "report".toList ∧
    stripSizeSuffix ("report-2023x2024".toList ++ ['\n']) = "report".toList ++ ['\n'] ∧
    stripSizeSuffix "2023x2024-report".toList = "2023x2024-report".toList := by
  refine ⟨?_, ?_, ?_⟩
  · exact claim_C1_amended.2.1 _ "report".toList
      ⟨"2023".toList, "2024".toList, by decide, by decide, by decide, by decide, by decide⟩
  · exact claim_C1_amended.2.2.1 _ "report".toList
      ⟨"2023".toList, "2024".toList, by decide, by decide, by decide, by decide, by decide⟩
  · refine claim_C1_amended.2.2.2.1 _ (by decide) ?_
    rintro ⟨a, hd⟩
    have h2 := sizeSuffixRest_of_decomp hd
    rw [show sizeSuffixRest "2023x2024-report".toList = none from by decide] at h2
    exact Option.noConfusion h2

/-- C2 (counterexample): `normalize_filename` is not idempotent.  On
`"a.b.png"` one application gives `"a.b"`, and a second application strips
again at the remaining dot, giving `"a"`. -/
theorem claim_C2_counterexample :
    normalize_filename (normalize_filename "a.b.png".toList) ≠
      normalize_filename "a.b.png".toList := by
  decide

/-- C2 (amended): `normalize_filename` is idempotent on every filename
whose normalized form contains no dot and is left unchanged by both
trailing-suffix strips — it ends in neither a `-<width>x<height>` size
suffix nor `"-scaled"`, also allowing for the single trailing newline
before which Python's `$` may match; in general a second application can
strip further. -/
theorem claim_C2_amended (s : List Char)
    (hdot : '.' ∉ normalize_filename s)
    (hsize : stripSizeSuffix (normalize_filename s) = normalize_filename s)
    (hscaled : stripScaledSuffix (normalize_filename s) = normalize_filename s) :
    normalize_filename (normalize_filename s) = normalize_filename s := by
  have hslash := slash_not_mem_normalize s
  have hdotn : normalize_filename s ≠ ['.'] := by
    intro h; rw [h] at hdot; exact hdot (List.mem_singleton.mpr rfl)
  calc normalize_filename (normalize_filename s)
      = lowerStr (stripScaledSuffix (stripSizeSuffix (stemOf
          (pathName (normalize_filename s))))) := rfl
    _ = lowerStr (stripScaledSuffix (stripSizeSuffix (stemOf
          (normalize_filename s)))) := by rw [pathName_eq_self hslash hdotn]
    _ = lowerStr (stripScaledSuffix (stripSizeSuffix (normalize_filename s))) := by
          rw [stemOf_eq_self hdot]
    _ = lowerStr (stripScaledSuffix (normalize_filename s)) := by rw [hsize]
    _ = lowerStr (normalize_filename s) := by rw [hscaled]
    _ = normalize_filename s :=
          lowerStr_idem (stripScaledSuffix (stripSizeSuffix (stemOf (pathName s))))

/-- C2 witness: the amended idempotence at the concrete input
`"photo-1024x768.png"`, whose normalized form is `"photo"`. -/
theorem claim_C2_amended_witness :
    ('.' ∉ normalize_filename "photo-1024x768.png".toList) ∧
    normalize_filename (normalize_filename "photo-1024x768.png".toList) =
      normalize_filename "photo-1024x768.png".toList :=
  ⟨by decide, claim_C2_amended _ (by decide) (by decide) (by decide)⟩

/-- C3 (counterexample): for a media item with no `source_url` but one
size variant carrying a URL, the code returns that variant URL while the
spec's `urlVariants` demands the empty list. -/
theorem claim_C3_counterexample :
    extract_url_patterns ⟨1, none, [("thumbnail".toList, some "u2".toList)]⟩ ≠
      urlVariantsSpec ⟨1, none, [("thumbnail".toList, some "u2".toList)]⟩ := by
  decide

/-- C3 (amended): `extract_url_patterns` returns the canonical URL (when
present and truthy) followed by each size-variant URL in mapping order,
skipping variants with a missing or empty URL; when the canonical URL is
absent, the canonical entry is omitted but the size-variant URLs are still
returned. -/
theorem claim_C3_amended :
    (∀ m : MediaItem, strTruthy m.source_url = true →
      extract_url_patterns m = (m.source_url.getD []) :: sizeVariantUrls m.sizes) ∧
    (∀ m : MediaItem, strTruthy m.source_url = false →
      extract_url_patterns m = sizeVariantUrls m.sizes) ∧
    (∀ (nm : List Char) rest, sizeVariantUrls ((nm, none) :: rest) = sizeVariantUrls rest) ∧
    (∀ (nm : List Char) rest, sizeVariantUrls ((nm, some []) :: rest) = sizeVariantUrls rest) ∧
    (∀ (nm u : List Char) rest, u ≠ [] →
      sizeVariantUrls ((nm, some u) :: rest) = u :: sizeVariantUrls rest) := by
  refine ⟨?_, ?_, ?_, ?_, ?_⟩
  · intro m h
    unfold extract_url_patterns
    rw [h]
    rfl
  · intro m h
    unfold extract_url_patterns
    rw [h]
    rfl
  · intro nm rest; rfl
  · intro nm rest; rfl
  · intro nm u rest hu
    cases u with
    | nil => exact absurd rfl hu
    | cons c cs => rfl

/-- C3 witness: the amended behaviour at a concrete media item with one
truthy canonical URL, one truthy variant, and one variant lacking a
URL. -/
theorem claim_C3_amended_witness :
    strTruthy (some "u1".toList) = true ∧
    extract_url_patterns
        ⟨7, some "u1".toList, [("t".toList, some "u2".toList), ("m".toList, none)]⟩ =
      "u1".toList ::
        sizeVariantUrls [("t".toList, some "u2".toList), ("m".toList, none)] :=
  ⟨by decide, claim_C3_amended.1 _ (by decide)⟩

/-- C5: `find_matching_media` returns `none` iff no media item qualifies
(its `source_url` file name, filtered to `.png` case-insensitively,
normalizes to the local file's normalized name), and returns the first
qualifying item in list order otherwise. -/
theorem claim_C5 (webpFile : List Char) (media_items : List MediaItem) :
    (find_matching_media webpFile media_items = none ↔
      ∀ m ∈ media_items,
        matchesMedia (normalize_filename (pathName webpFile)) m = false) ∧
    (∀ l1 m l2, media_items = l1 ++ m :: l2 →
      (∀ x ∈ l1, matchesMedia (normalize_filename (pathName webpFile)) x = false) →
      matchesMedia (normalize_filename (pathName webpFile)) m = true →
      find_matching_media webpFile media_items = some m) := by
  constructor
  · unfold find_matching_media
    induction media_items with
    | nil => simp [findFirstMatch]
    | cons a rest ih =>
      by_cases hm : matchesMedia (normalize_filename (pathName webpFile)) a = true
      · simp [findFirstMatch, hm]
      · simp only [findFirstMatch, if_neg hm, ih, List.mem_cons]
        constructor
        · intro h m hmem
          rcases hmem with h1 | h2
          · subst h1; exact Bool.not_eq_true _ ▸ by simpa using hm
          · exact h m h2
        · intro h m hmem
          exact h m (Or.inr hmem)
  · intro l1 m l2 heq h1 hm
    subst heq
    unfold find_matching_media
    induction l1 with
    | nil => simp [findFirstMatch, hm]
    | cons x xs ih =>
      have hx : matchesMedia (normalize_filename (pathName webpFile)) x = false :=
        h1 x (by simp)
      simp only [List.cons_append, findFirstMatch, hx]
      simp only [Bool.false_eq_true, if_false]
      exact ih (fun y hy => h1 y (by simp [hy]))

/-- C5 witness: with two qualifying assets in the listing, the first in
list order is returned; the claimed theorem is applied at this concrete
input. -/
theorem claim_C5_witness :
    find_matching_media "logo.webp".toList
        [⟨1, some "http://x/other.png".toList, []⟩,
         ⟨2, some "http://x/logo-1024x768.png".toList, []⟩,
         ⟨3, some "http://x/logo.png".toList, []⟩] =
      some ⟨2, some "http://x/logo-1024x768.png".toList, []⟩ :=
  (claim_C5 "logo.webp".toList _).2
    [⟨1, some "http://x/other.png".toList, []⟩]
    ⟨2, some "http://x/logo-1024x768.png".toList, []⟩
    [⟨3, some "http://x/logo.png".toList, []⟩]
    rfl (by decide) (by decide)

theorem containsSub_iff (hay needle : List Char) :
    containsSub hay needle = true ↔ needle <:+: hay := by
  induction hay with
  | nil =>
    simp only [containsSub, Bool.or_false]
    rw [ List.isPrefixOf_iff_prefix, List.prefix_nil, List.infix_nil]
  | cons c t ih =>
    simp only [containsSub, Bool.or_eq_true, ih]
    rw [ List.isPrefixOf_iff_prefix, List.infix_cons_iff]

/-- C6: `find_content_with_urls` is exactly the order-preserving filter of
the items whose body text contains at least one of the URLs as a literal
substring (so it is a subsequence of the input, and each matching item
appears exactly as often as in the input even when several URLs match
it). -/
theorem claim_C6 (posts_and_pages : List ContentItem) (urls : List (List Char)) :
    find_content_with_urls posts_and_pages urls =
      posts_and_pages.filter
        (fun item => urls.any (fun url => containsSub (contentHtml item.content) url)) ∧
    (find_content_with_urls posts_and_pages urls).Sublist posts_and_pages ∧
    (∀ hay needle, containsSub hay needle = true ↔ needle <:+: hay) := by
  have hfilter : find_content_with_urls posts_and_pages urls =
      posts_and_pages.filter
        (fun item => urls.any (fun url => containsSub (contentHtml item.content) url)) := by
    induction posts_and_pages with
    | nil => rfl
    | cons item rest ih =>
      by_cases h : (urls.any (fun url => containsSub (contentHtml item.content) url)) = true
      · simp only [find_content_with_urls, if_pos h, ih, List.filter_cons, h]
      · simp only [find_content_with_urls, ih, List.filter_cons, h]
  exact ⟨hfilter, hfilter ▸ List.filter_sublist _, containsSub_iff⟩

set_option maxRecDepth 4000

/-- C7: the pagination loop starts at page 1, stops on an empty page, and
stops when the current page reaches the server-reported total page count;
against the mock endpoint serving 100 items per page for 3 pages (with
`X-WP-TotalPages: 3`) and empty pages afterwards, `get_media_items`
returns 300 items and requests exactly pages 1, 2, 3 — no fourth
request. -/
theorem claim_C7 :
    ((get_media_items mockServer3 10).1.length = 300 ∧
      (get_media_items mockServer3 10).2 = [1, 2, 3]) ∧
    (∀ (α : Type) (server : Nat → ReqOutcome α) fuel page acc reqs r,
      server page = .ok r → r.status = 200 → r.items.isEmpty = true →
      fetchAllPages server (fuel + 1) page acc reqs = (acc, reqs ++ [page])) ∧
    (∀ (α : Type) (server : Nat → ReqOutcome α) fuel page acc reqs r,
      server page = .ok r → r.status = 200 → r.items.isEmpty = false →
      page ≥ r.totalPages.getD 1 →
      fetchAllPages server (fuel + 1) page acc reqs = (acc ++ r.items, reqs ++ [page])) ∧
    (∀ (α : Type) (server : Nat → ReqOutcome α) fuel,
      get_media_items server fuel = fetchAllPages server fuel 1 [] []) := by
  refine ⟨⟨by decide, by decide⟩, ?_, ?_, fun α server fuel => rfl⟩
  · intro α server fuel page acc reqs r hs h200 hempty
    simp [fetchAllPages, hs, h200, hempty]
  · intro α server fuel page acc reqs r hs h200 hempty hge
    simp [fetchAllPages, hs, h200, hempty, hge]

/-- C7 witness: the two stopping rules applied at concrete servers — an
empty first page stops after one request, and a full page at the reported
total page count stops after that request. -/
theorem claim_C7_witness :
    fetchAllPages (fun _ => ReqOutcome.ok (⟨200, ([] : List Nat), some 3⟩ : PageResponse Nat))
        5 1 [] [] = ([], [1]) ∧
    fetchAllPages (fun _ => ReqOutcome.ok (⟨200, [7], some 1⟩ : PageResponse Nat))
        5 1 [] [] = ([7], [1]) :=
  ⟨claim_C7.2.1 Nat _ 4 1 [] [] (⟨200, ([] : List Nat), some 3⟩ : PageResponse Nat) rfl rfl rfl,
    claim_C7.2.2.1 Nat _ 4 1 [] [] (⟨200, [7], some 1⟩ : PageResponse Nat) rfl rfl rfl (by decide)⟩

/-- C8: transport failures are absorbed, never propagated: the pagination
loop returns everything accumulated so far when a request raises,
`upload_media` returns an asset record iff the response status is 201
("created") and `none` otherwise (including exceptions and local I/O
errors), and `update_post` / `update_page` return true iff the update
response is HTTP 200, false otherwise (including exceptions). -/
theorem claim_C8 :
    (∀ (α : Type) (server : Nat → ReqOutcome α) fuel page acc reqs,
      server page = .exn →
      fetchAllPages server (fuel + 1) page acc reqs = (acc, reqs ++ [page])) ∧
    (∀ r, (upload_media r).isSome = true ↔
      ∃ st body, r = UploadOutcome.ok st body ∧ st = 201) ∧
    upload_media .exn = none ∧
    upload_media .ioError = none ∧
    (∀ r, update_post r = true ↔ r = SimpleOutcome.ok 200) ∧
    (∀ r, update_page r = true ↔ r = SimpleOutcome.ok 200) ∧
    update_post .exn = false ∧
    update_page .exn = false := by
  refine ⟨?_, ?_, rfl, rfl, ?_, ?_, rfl, rfl⟩
  · intro α server fuel page acc reqs hs
    simp [fetchAllPages, hs]
  · intro r
    cases r with
    | ioError => simp [upload_media]
    | exn => simp [upload_media]
    | ok st body =>
      by_cases h : st = 201
      · subst h
        simp [upload_media]
      · simp [upload_media, h]
  · intro r
    cases r with
    | exn => simp [update_post]
    | ok st => simp only [update_post, beq_iff_eq, SimpleOutcome.ok.injEq]
  · intro r
    cases r with
    | exn => simp [update_page]
    | ok st => simp only [update_page, beq_iff_eq, SimpleOutcome.ok.injEq]

/-- C8 witness: the exception-absorbing behaviours at concrete inputs —
a failing first page yields the empty accumulation after one request, and
a successful upload response yields an asset record. -/
theorem claim_C8_witness :
    fetchAllPages (fun _ => (ReqOutcome.exn : ReqOutcome Nat)) 3 1 [] [] = ([], [1]) ∧
    (upload_media (UploadOutcome.ok 201 ⟨5, some "u".toList, []⟩)).isSome = true ∧
    update_post (SimpleOutcome.ok 200) = true :=
  ⟨claim_C8.1 Nat _ 2 1 [] [] rfl,
    (claim_C8.2.1 _).mpr ⟨201, ⟨5, some "u".toList, []⟩, rfl, rfl⟩,
    (claim_C8.2.2.2.2.1 _).mpr rfl⟩

/-- C9: when a listing response carries no `X-WP-TotalPages` header the
loop treats the total page count as 1, so after a successful nonempty
first page it stops and returns only that page's items — even if the
server would serve further nonempty pages. -/
theorem claim_C9 (α : Type) (server : Nat → ReqOutcome α) (fuel : Nat)
    (r : PageResponse α) (h1 : server 1 = .ok r) (h2 : r.status = 200)
    (h3 : r.items.isEmpty = false) (h4 : r.totalPages = none) :
    get_media_items server (fuel + 1) = (r.items, [1]) ∧
    get_posts server (fuel + 1) = (r.items, [1]) ∧
    get_pages server (fuel + 1) = (r.items, [1]) := by
  have hloop : fetchAllPages server (fuel + 1) 1 [] [] = (r.items, [1]) := by
    simp [fetchAllPages, h1, h2, h3, h4]
  exact ⟨hloop, hloop, hloop⟩

/-- C9 witness: a server with a full first page carrying no total-pages
header and a further nonempty second page; only the first page's items are
returned and only page 1 is requested. -/
theorem claim_C9_witness :
    get_media_items
        (fun p => if p = 1 then ReqOutcome.ok (⟨200, [10, 20], none⟩ : PageResponse Nat)
          else ReqOutcome.ok ⟨200, [30], some 5⟩) 6 = ([10, 20], [1]) :=
  (claim_C9 Nat _ 5 ⟨200, [10, 20], none⟩ rfl rfl rfl rfl).1

theorem expandTemplateF_no_backslash {matched tmpl : List Char} {fuel : Nat}
    (hf : tmpl.length ≤ fuel) (h : '\\' ∉ tmpl) :
    expandTemplateF matched fuel tmpl = some tmpl := by
  induction fuel generalizing tmpl with
  | zero =>
    cases tmpl with
    | nil => rfl
    | cons c rest => simp at hf
  | succ fuel ih =>
    cases tmpl with
    | nil => rfl
    | cons c rest =>
      have hc : ¬ c = '\\' := fun he => h (he ▸ List.mem_cons_self c rest)
      have hrest : '\\' ∉ rest := fun hm => h (List.mem_cons_of_mem c hm)
      have hlen : rest.length ≤ fuel := by simpa using hf
      simp only [expandTemplateF, if_neg hc, ih hlen hrest]
      rfl

theorem expandTemplate_no_backslash {matched tmpl : List Char} (h : '\\' ∉ tmpl) :
    expandTemplate matched tmpl = some tmpl :=
  expandTemplateF_no_backslash le_rfl h

theorem litReplace_eq_pySub_countOccs (old new : List Char) (fuel : Nat) (t : List Char) :
    litReplace old new fuel t = (pySubF old new fuel t, countOccsF old fuel t) := by
  induction fuel generalizing t with
  | zero =>
    cases t with
    | nil =>
      by_cases h0 : old.isEmpty = true
      · simp only [litReplace, pySubF, countOccsF, if_pos h0]
      · simp only [litReplace, pySubF, countOccsF, if_neg h0]
    | cons c rest => rfl
  | succ fuel ih =>
    cases t with
    | nil =>
      by_cases h0 : old.isEmpty = true
      · simp only [litReplace, pySubF, countOccsF, if_pos h0]
      · simp only [litReplace, pySubF, countOccsF, if_neg h0]
    | cons c rest =>
      by_cases h0 : old.isEmpty = true
      · simp only [litReplace, pySubF, countOccsF, if_pos h0, ih]
      · by_cases h1 : old.isPrefixOf (c :: rest) = true
        · simp only [litReplace, pySubF, countOccsF, if_neg h0, if_pos h1, ih]
        · simp only [litReplace, pySubF, countOccsF, if_neg h0, if_neg h1, ih]

theorem pySubF_of_countOccsF_zero {old new : List Char} {fuel : Nat} {t : List Char}
    (h : countOccsF old fuel t = 0) : pySubF old new fuel t = t := by
  induction fuel generalizing t with
  | zero =>
    cases t with
    | nil =>
      simp only [countOccsF] at h
      by_cases h0 : old.isEmpty = true
      · rw [if_pos h0] at h; exact absurd h (by simp)
      · simp only [pySubF, if_neg h0]
    | cons c rest => rfl
  | succ fuel ih =>
    cases t with
    | nil =>
      simp only [countOccsF] at h
      by_cases h0 : old.isEmpty = true
      · rw [if_pos h0] at h; exact absurd h (by simp)
      · simp only [pySubF, if_neg h0]
    | cons c rest =>
      simp only [countOccsF] at h
      by_cases h0 : old.isEmpty = true
      · rw [if_pos h0] at h; exact absurd h (by simp)
      · rw [if_neg h0] at h
        by_cases h1 : old.isPrefixOf (c :: rest) = true
        · rw [if_pos h1] at h; exact absurd h (by simp)
        · rw [if_neg h1] at h
          simp only [pySubF, if_neg h0, if_neg h1, ih h]

theorem farGo_eq_spec {new_url : List Char} (h : '\\' ∉ new_url) :
    ∀ (old_urls : List (List Char)) (text : List Char) (total : Nat),
      farGo new_url old_urls text total =
        some (replaceAllSpecGo new_url old_urls text total) := by
  intro old_urls
  induction old_urls with
  | nil => intro text total; rfl
  | cons old rest ih =>
    intro text total
    have hlit : litReplace old new_url text.length text =
        (pySub old new_url text, countOccs old text) :=
      litReplace_eq_pySub_countOccs old new_url text.length text
    by_cases hc : countOccs old text > 0
    · simp only [farGo, replaceAllSpecGo, hlit, if_pos hc,
        @expandTemplate_no_backslash old new_url h]
      exact ih (pySub old new_url text) (total + countOccs old text)
    · have hz : countOccs old text = 0 := Nat.eq_zero_of_not_pos hc
      have hsub : pySub old new_url text = text :=
        pySubF_of_countOccsF_zero hz
      simp only [farGo, replaceAllSpecGo, hlit, if_neg hc, hsub, hz, Nat.add_zero]
      exact ih text total

/-- C4 (counterexample): `find_and_replace_urls` does not insert the new
URL literally.  With old URL `"a"`, text `"a"`, and new URL the two
characters backslash-`n`, the code inserts a newline (the `re.sub`
replacement-template reading of `\n`), not the two-character new URL the
claim demands. -/
theorem claim_C4_counterexample :
    find_and_replace_urls "a".toList ["a".toList] "\\n".toList ≠
      some (replaceAllSpec "a".toList ["a".toList] "\\n".toList) := by
  decide

/-- C4 (amended): provided the new URL contains no backslash (otherwise
`re.sub` reads it as a replacement template, see C10),
`find_and_replace_urls` processes the old URLs in order against the
progressively updated text, replaces every literal non-overlapping
occurrence of each old URL with the new URL, and returns the final text
with the accumulated total count; the claim's concrete examples hold. -/
theorem claim_C4_amended :
    (∀ (text : List Char) (old_urls : List (List Char)) (new_url : List Char),
      '\\' ∉ new_url →
      find_and_replace_urls text old_urls new_url =
        some (replaceAllSpec text old_urls new_url)) ∧
    (∀ (text new_url : List Char),
      find_and_replace_urls text [] new_url = some (text, 0)) ∧
    find_and_replace_urls "a.png b.png".toList ["a.png".toList] "c.png".toList =
      some ("c.png b.png".toList, 1) :=
  ⟨fun text old_urls new_url h => farGo_eq_spec h old_urls text 0,
    fun _ _ => rfl, by decide⟩

/-- C4 witness: the amended equivalence applied at a concrete backslash-free
replacement. -/
theorem claim_C4_amended_witness :
    ('\\' ∉ "c.png".toList) ∧
    find_and_replace_urls "x a.png y a.png".toList ["a.png".toList] "c.png".toList =
      some (replaceAllSpec "x a.png y a.png".toList ["a.png".toList] "c.png".toList) :=
  ⟨by decide, claim_C4_amended.1 _ _ _ (by decide)⟩

/-- C10: the new URL is passed to `re.sub` as a replacement template.  For
every backslash-free new URL each matched occurrence is replaced by
exactly that string, but a backslash makes the new URL be read as template
escapes: `"\n"` (backslash, `n`) inserts a newline instead of the
two-character string, and `"\q"` is a bad escape that raises `re.error`
(modelled as `none`) instead of returning. -/
theorem claim_C10 :
    (∀ matched tmpl : List Char, '\\' ∉ tmpl →
      expandTemplate matched tmpl = some tmpl) ∧
    (∀ (text : List Char) (old_urls : List (List Char)) (new_url : List Char),
      '\\' ∉ new_url →
      find_and_replace_urls text old_urls new_url =
        some (replaceAllSpec text old_urls new_url)) ∧
    find_and_replace_urls "a".toList ["a".toList] "\\n".toList =
      some ("\n".toList, 1) ∧
    "\n".toList ≠ "\\n".toList ∧
    find_and_replace_urls "a".toList ["a".toList] "\\q".toList = none :=
  ⟨fun _ _ h => expandTemplate_no_backslash h,
    fun text old_urls new_url h => farGo_eq_spec h old_urls text 0,
    by decide, by decide, by decide⟩

/-- C10 witness: the backslash-free part applied at a concrete template. -/
theorem claim_C10_witness :
    expandTemplate "a".toList "hello".toList = some "hello".toList :=
  claim_C10.1 "a".toList "hello".toList (by decide)
